import Mathlib

/-!
Verification of the polytope/impurity analysis utilities (src/utils.py) of the
dd_exp repository.  Pure numeric code is embedded shallowly: per-point vector
arithmetic over `ℚ`, transcendental formulas (Gaussian posterior, Hellinger
distance) over `ℝ`, numpy int64 arithmetic as `ℕ` modulo `2 ^ 64`, and the
division-by-zero branch of `gini_impurity` as `Option`.
-/

namespace DDExp

/-! ### Vectors, affine layers and modules (utils.py: class Net, get_polytopes) -/

/-- A 1-D numeric array (one row of a batch), entries as exact rationals. -/
abbrev Vec := List ℚ

/-- One `torch.nn.Linear` layer: weight matrix (rows = output units) and bias
vector, as read by `get_polytopes` (`layer.weight.data`, `layer.bias.data`). -/
structure LinearLayer where
  weight : List (List ℚ)
  bias : Vec
deriving DecidableEq

/-- A module of a network as seen by `model.modules()`: a Linear layer, an
activation module, or a `BatchNorm1d` module carrying its own parameters. -/
inductive NetModule where
  | lin (l : LinearLayer)
  | act
  | bn (params : List ℚ)
deriving DecidableEq

/-- Dot product of two rational vectors (`np.matmul` restricted to one row and
one column). -/
def dot (a b : List ℚ) : ℚ := (a.zipWith (· * ·) b).sum

/-- Affine map of one layer on one input row:
`preactivation = np.matmul(last_activations, weights.T) + bias` (utils.py:454),
restricted to a single row of the batch. -/
def affine (l : LinearLayer) (x : Vec) : Vec :=
  (l.weight.map (fun row => dot row x)).zipWith (· + ·) l.bias

/-- The module filter of utils.py:450:
`[module for module in model.modules() if type(module) == torch.nn.Linear]`. -/
def linearLayers (m : List NetModule) : List LinearLayer :=
  m.filterMap (fun md => match md with | NetModule.lin l => some l | _ => none)

/-- `last_activations = preactivation * binary_preactivation` (utils.py:460):
element-wise product of the preactivation with the 0/1 mask. -/
def maskGate (pre : Vec) (mask : List Bool) : Vec :=
  pre.zipWith (fun p b => p * (if b then 1 else 0)) mask

/-- The layer loop of `get_polytopes` (utils.py:452-463) on one input row.
State: current layer index `idx` (the loop enumerates layers, comparing
`layer_id == len(layers) - 1` where `total = len(layers)`), remaining layers,
`last_activations`, and the captured `penultimate_act`.  Returns the per-layer
`(preactivation, binary_preactivation)` trace, the final `last_activations`,
and `penultimate_act`. -/
def polytopeLoop (penult : Bool) (total : ℕ) :
    ℕ → List LinearLayer → Vec → Option Vec → List (Vec × List Bool) × Vec × Option Vec
  | _, [], acts, pen => ([], acts, pen)
  | idx, l :: rest, acts, pen =>
      let pre := affine l acts
      let mask := pre.map (fun v => decide ((if idx = total - 1 then (1 : ℚ)/2 else 0) < v))
      let newActs := maskGate pre mask
      let newPen := if penult = true ∧ idx = total - 1 then some newActs else pen
      let r := polytopeLoop penult total (idx + 1) rest newActs newPen
      (⟨pre, mask⟩ :: r.1, r.2)

/-- `2 ** np.arange(0, width)` (utils.py:464). -/
def powersOfTwo (n : ℕ) : List ℕ := (List.range n).map (2 ^ ·)

/-- The mathematical dot product of a 0/1 bit row with `2 ** np.arange(width)`
(`np.tensordot(concatenated_masks, 2 ** np.arange(0, width), axes = 1)`,
utils.py:464), before accounting for the int64 width. -/
def patternIdRaw (bits : List Bool) : ℕ :=
  (bits.zipWith (fun b p => if b then p else 0) (powersOfTwo bits.length)).sum

/-- The region identifier actually produced at utils.py:464.  The numpy arrays
involved (`astype('int')` masks and `2 ** np.arange`) have dtype int64, so the
powers of two and the dot product wrap around modulo `2 ^ 64`; two int64
results are equal exactly when the residues modulo `2 ^ 64` are equal. -/
def patternId (bits : List Bool) : ℕ := patternIdRaw bits % 2 ^ 64

/-- `get_polytopes` (utils.py:441-468) on one input row: the region identifier
from the concatenated per-layer masks, and either `penultimate_act` (when
`penultimate` is set; `None` if there is no Linear layer) or the final
`last_activations`. -/
def get_polytopes (m : List NetModule) (x : Vec) (penultimate : Bool) : ℕ × Option Vec :=
  let layers := linearLayers m
  let r := polytopeLoop penultimate layers.length 0 layers x none
  (patternId ((r.1.map Prod.snd).flatten), if penultimate then r.2.2 else some r.2.1)

/-- Spec-side value for the penultimate capture, following the spec words:
"capture `activations` before the final mask is applied", i.e. the final
Linear layer's preactivation, before the `> 0.5` mask gates it. -/
def specPenultimateAct (m : List NetModule) (x : Vec) : Option Vec :=
  ((polytopeLoop false (linearLayers m).length 0 (linearLayers m) x none).1.getLast?).map
    Prod.fst

/-! ### Net construction (utils.py: Net.__init__, lines 56-81) -/

/-- The kind of one module appended by `Net.__init__`: a `nn.Linear(inF, outF,
bias)`, the activation module, or `nn.BatchNorm1d(numFeatures)`. -/
inductive LayerSpec where
  | linear (inF outF : ℕ) (bias : Bool)
  | act
  | bn (numFeatures : ℕ)
deriving DecidableEq

/-- The ordered module list built by `Net.__init__` (utils.py:56-81): first
`Linear(in_dim, hidden_size)`; then `n_hidden` blocks of activation,
optional BatchNorm, `Linear(hidden_size, hidden_size)`; then, if
`penultimate`, activation, optional BatchNorm, `Linear(hidden_size, 2)` (and
`hidden_size` is reassigned to 2); finally activation, optional BatchNorm,
`Linear(hidden_size, out_dim)`. -/
def netModules (in_dim out_dim hidden_size n_hidden : ℕ) (bias penultimate bn : Bool) :
    List LayerSpec :=
  [LayerSpec.linear in_dim hidden_size bias]
    ++ (List.replicate n_hidden
        ([LayerSpec.act] ++ (if bn then [LayerSpec.bn hidden_size] else [])
          ++ [LayerSpec.linear hidden_size hidden_size bias])).flatten
    ++ (if penultimate then
          [LayerSpec.act] ++ (if bn then [LayerSpec.bn hidden_size] else [])
            ++ [LayerSpec.linear hidden_size 2 bias]
        else [])
    ++ (let h := if penultimate then 2 else hidden_size
        [LayerSpec.act] ++ (if bn then [LayerSpec.bn h] else [])
          ++ [LayerSpec.linear h out_dim bias])

/-- Whether a module is an affine (`nn.Linear`) layer. -/
def isLinearSpec : LayerSpec → Bool
  | LayerSpec.linear _ _ _ => true
  | _ => false

/-- Number of affine (`nn.Linear`) layers in a module list. -/
def countLinear (m : List LayerSpec) : ℕ := (m.filter isLinearSpec).length

/-! ### Dataset generator (utils.py: generate_gaussian_parity, lines 21-45) -/

/-- Shallow embedding of `generate_gaussian_parity` with the random draws
abstracted to their row counts: the first component is the number of sample
rows in `X` (each of the four means contributes `int(n / 4)` rows to `blob`,
and `X = np.zeros_like(blob)` is then rotated row-for-row), the second is the
label vector `Y = concat([np.ones(int(n / 4)) * int(i < 2) for i in range(4)])`. -/
def generate_gaussian_parity (n : ℕ) : ℕ × List ℕ :=
  (((List.range 4).map (fun _ => n / 4)).sum,
   (List.range 4).flatMap (fun i => List.replicate (n / 4) (if i < 2 then 1 else 0)))

/-! ### Gini impurity (utils.py: gini_impurity, lines 375-378) -/

/-- `gini_impurity(P1, P2) = 2 * (P1/denom) * (P2/denom)` with
`denom = P1 + P2` (utils.py:375-378).  The division is not guarded in the
source; `denom = 0` raises `ZeroDivisionError` (ints) or yields NaN (numpy
floats), embedded as `none`. -/
def gini_impurity (P1 P2 : ℚ) : Option ℚ :=
  let denom := P1 + P2
  if denom = 0 then none
  else some (2 * (P1 / denom) * (P2 / denom))

/-! ### Claim C5: number of affine layers built by Net.__init__ -/

theorem countLinear_append (xs ys : List LayerSpec) :
    countLinear (xs ++ ys) = countLinear xs + countLinear ys := by
  simp [countLinear, List.filter_append]

theorem countLinear_join_replicate (n : ℕ) (bl : List LayerSpec) :
    countLinear ((List.replicate n bl).flatten) = n * countLinear bl := by
  induction n with
  | zero => simp [countLinear]
  | succ k ih =>
      rw [List.replicate_succ, List.flatten_cons, countLinear_append, ih]
      ring

/-- C5 (amended): `Net.__init__` builds exactly `n_hidden + 2` Linear layers
when `penultimate` is not requested, and `n_hidden + 3` when it is (one more
than the claim states in each case). -/
theorem netModules_linear_count (i o h n : ℕ) (b p bnFlag : Bool) :
    countLinear (netModules i o h n b p bnFlag) = n + 2 + (if p then 1 else 0) := by
  cases p <;> cases bnFlag <;>
    simp [netModules, countLinear_append, countLinear_join_replicate, countLinear,
      isLinearSpec]

/-- C5 counterexample: with `n_hidden = 2` and no penultimate projection the
network contains 4 Linear layers, not `n_hidden + 1 = 3` as the claim states. -/
theorem netModules_linear_count_counterexample :
    countLinear (netModules 2 1 10 2 true false false) = 4 ∧ (4 : ℕ) ≠ 2 + 1 := by
  constructor
  · decide
  · decide

/-! ### Claim C6: sample counts of generate_gaussian_parity -/

/-- C6 (amended): `generate_gaussian_parity` never signals an error; for every
`n` it silently produces `4 * (n / 4)` points (floor division), so an `n` that
is not a multiple of 4 is silently truncated; when `4 ∣ n` it produces exactly
`n` points and labels. -/
theorem generate_gaussian_parity_count (n : ℕ) :
    (generate_gaussian_parity n).1 = 4 * (n / 4) ∧
    (generate_gaussian_parity n).2.length = 4 * (n / 4) ∧
    (4 ∣ n → (generate_gaussian_parity n).1 = n) := by
  refine ⟨?_, ?_, ?_⟩
  · simp [generate_gaussian_parity, List.range_succ]
    ring
  · simp [generate_gaussian_parity, List.range_succ]
    ring
  · intro hdvd
    simp [generate_gaussian_parity, List.range_succ]
    omega

/-- C6 witness: at the valid input `n = 8` the generator produces exactly 8
labels, via the amended theorem with its divisibility hypothesis discharged. -/
theorem generate_gaussian_parity_count_witness :
    (generate_gaussian_parity 8).1 = 8 :=
  (generate_gaussian_parity_count 8).2.2 (by decide)

/-- C6 counterexample: `n = 6` is not a multiple of 4, yet the generator does
not signal an error — it silently returns 4 points and 4 labels, not 6. -/
theorem generate_gaussian_parity_truncates :
    (generate_gaussian_parity 6).1 = 4 ∧ (generate_gaussian_parity 6).2.length = 4 ∧
      (4 : ℕ) ≠ 6 := by
  refine ⟨by decide, by decide, by decide⟩

/-! ### Claim C7: the empty-region branch of gini_impurity -/

/-- C7 (amended): the division in `gini_impurity` is not guarded — the
division-by-zero branch is taken exactly when `P1 + P2 = 0`, and in that case
the function signals the error (NaN/`ZeroDivisionError`) instead of returning
impurity 0 or skipping. -/
theorem gini_impurity_none_iff (P1 P2 : ℚ) :
    gini_impurity P1 P2 = none ↔ P1 + P2 = 0 := by
  simp only [gini_impurity]
  split_ifs with h <;> simp [h]

/-- C7 counterexample: on the empty region `P1 = P2 = 0` the code divides by
zero (error), and in particular does not return impurity 0. -/
theorem gini_impurity_empty_region_error :
    gini_impurity 0 0 = none ∧ gini_impurity 0 0 ≠ some 0 := by
  constructor <;> simp [gini_impurity]

/-! ### Claim C2: pattern-to-identifier encoding -/

theorem patternIdRaw_nil : patternIdRaw [] = 0 := rfl

theorem zipWith_pow_succ_sum (r : List Bool) (l : List ℕ) :
    (List.zipWith (fun bb k => if bb then 2 ^ (k + 1) else 0) r l).sum =
      2 * (List.zipWith (fun bb k => if bb then 2 ^ k else 0) r l).sum := by
  induction r generalizing l with
  | nil => simp
  | cons bb r ih =>
      cases l with
      | nil => simp
      | cons k l =>
          simp only [List.zipWith_cons_cons, List.sum_cons, ih, mul_add]
          cases bb <;> simp [pow_succ]
          ring

theorem patternIdRaw_cons (b : Bool) (r : List Bool) :
    patternIdRaw (b :: r) = (if b then 1 else 0) + 2 * patternIdRaw r := by
  unfold patternIdRaw powersOfTwo
  rw [List.length_cons, List.range_succ_eq_map]
  simp only [List.map_cons, pow_zero, List.map_map, List.zipWith_cons_cons, List.sum_cons]
  congr 1
  rw [List.zipWith_map_right, List.zipWith_map_right]
  simpa [Function.comp] using zipWith_pow_succ_sum r (List.range r.length)

theorem patternIdRaw_lt (bits : List Bool) : patternIdRaw bits < 2 ^ bits.length := by
  induction bits with
  | nil => simp [patternIdRaw_nil]
  | cons b r ih =>
      rw [patternIdRaw_cons, List.length_cons, pow_succ]
      cases b <;> (simp; omega)

theorem patternIdRaw_inj : ∀ (A B : List Bool), A.length = B.length →
    (patternIdRaw A = patternIdRaw B ↔ A = B) := by
  intro A
  induction A with
  | nil =>
      intro B h
      cases B with
      | nil => simp
      | cons b B => simp at h
  | cons a A ih =>
      intro B h
      cases B with
      | nil => simp at h
      | cons b B =>
          simp only [List.length_cons, add_left_inj] at h
          rw [patternIdRaw_cons, patternIdRaw_cons]
          constructor
          · intro he
            have hab : a = b := by
              cases a <;> cases b <;> simp_all <;> omega
            subst hab
            have hr : patternIdRaw A = patternIdRaw B := by
              cases a <;> simp at he <;> omega
            rw [(ih B h).mp hr]
          · intro he
            cases he
            rfl

/-- C2 (amended): the positional powers-of-two encoding is injective on equal
length patterns only up to the int64 width: if the patterns have length at
most 64 their identifiers (computed modulo `2 ^ 64`) are equal exactly when
the patterns are equal; beyond 64 bits the int64 dot product overflows and
distinct patterns can share an identifier. -/
theorem patternId_inj_of_length_le_64 (A B : List Bool) (hlen : A.length = B.length)
    (h64 : A.length ≤ 64) :
    patternId A = patternId B ↔ A = B := by
  have h2 : (0 : ℕ) < 2 := by norm_num
  have hA : patternId A = patternIdRaw A :=
    Nat.mod_eq_of_lt (lt_of_lt_of_le (patternIdRaw_lt A) (Nat.pow_le_pow_right h2 h64))
  have hB : patternId B = patternIdRaw B :=
    Nat.mod_eq_of_lt (lt_of_lt_of_le (patternIdRaw_lt B)
      (Nat.pow_le_pow_right h2 (hlen ▸ h64)))
  rw [hA, hB]
  exact patternIdRaw_inj A B hlen

/-- C2 witness: the amended theorem applied to the concrete equal-length
patterns `[1,0]` and `[0,1]`, whose identifiers (1 and 2) differ. -/
theorem patternId_inj_witness :
    ([true, false] : List Bool).length = ([false, true] : List Bool).length ∧
      (patternId [true, false] = patternId [false, true] ↔
        ([true, false] : List Bool) = [false, true]) :=
  ⟨rfl, patternId_inj_of_length_le_64 [true, false] [false, true] rfl (by decide)⟩

/-- C2 counterexample: two distinct 65-bit patterns (a network with 65 total
units) receive the same identifier, because `2 ** np.arange(65)` is an int64
array and `2 ** 64` wraps to 0: the bit at position 64 contributes nothing. -/
theorem patternId_collision_length65 :
    (List.replicate 64 false ++ [true]) ≠ List.replicate 65 false ∧
      (List.replicate 64 false ++ [true]).length =
        (List.replicate 65 false : List Bool).length ∧
      patternId (List.replicate 64 false ++ [true]) = patternId (List.replicate 65 false) := by
  refine ⟨by decide, by decide, by decide⟩

/-! ### Claim C3: mask thresholds of the polytope analyzer -/

theorem polytopeLoop_trace_get (penult : Bool) (total : ℕ) :
    ∀ (layers : List LinearLayer) (idx : ℕ) (acts : Vec) (pen : Option Vec) (i : ℕ)
      (pre : Vec) (mask : List Bool),
      ((polytopeLoop penult total idx layers acts pen).1)[i]? = some (pre, mask) →
      mask = pre.map (fun v => decide ((if idx + i = total - 1 then (1 : ℚ)/2 else 0) < v)) := by
  intro layers
  induction layers with
  | nil =>
      intro idx acts pen i pre mask h
      simp [polytopeLoop] at h
  | cons l rest ih =>
      intro idx acts pen i pre mask h
      cases i with
      | zero =>
          simp [polytopeLoop] at h
          obtain ⟨h1, h2⟩ := h
          subst h1
          subst h2
          simp
      | succ j =>
          simp only [polytopeLoop, List.getElem?_cons_succ] at h
          have := ih (idx + 1) _ _ j pre mask h
          rw [this]
          have harith : idx + 1 + j = idx + (j + 1) := by omega
          rw [harith]

/-- C3: in the layer loop of `get_polytopes`, the binary mask recorded for the
affine layer at position `i` is `preactivation > 0` for every layer except the
last and `preactivation > 0.5` for the last affine layer. -/
theorem get_polytopes_mask_thresholds (m : List NetModule) (x : Vec) (penult : Bool)
    (i : ℕ) (pre : Vec) (mask : List Bool)
    (h : ((polytopeLoop penult (linearLayers m).length 0 (linearLayers m) x none).1)[i]? =
      some (pre, mask)) :
    mask = pre.map (fun v =>
      decide ((if i = (linearLayers m).length - 1 then (1 : ℚ)/2 else 0) < v)) := by
  have := polytopeLoop_trace_get penult (linearLayers m).length (linearLayers m) 0 x none
    i pre mask h
  simpa using this

/-- C3 witness: for a concrete 2-Linear-layer model on the input `[1]`, the
first layer is masked at threshold 0 and the last layer at threshold 0.5. -/
theorem get_polytopes_mask_thresholds_witness :
    ((polytopeLoop false
        (linearLayers [NetModule.lin ⟨[[1]], [0]⟩, NetModule.act,
          NetModule.lin ⟨[[1]], [0]⟩]).length 0
        (linearLayers [NetModule.lin ⟨[[1]], [0]⟩, NetModule.act,
          NetModule.lin ⟨[[1]], [0]⟩]) [1] none).1)[1]? = some ([1], [true]) ∧
      [true] = List.map (fun v =>
        decide ((if 1 = (linearLayers [NetModule.lin ⟨[[1]], [0]⟩, NetModule.act,
          NetModule.lin ⟨[[1]], [0]⟩]).length - 1 then (1 : ℚ)/2 else 0) < v)) [1] := by
  constructor
  · norm_num [polytopeLoop, linearLayers, affine, dot, maskGate, List.filterMap_cons,
      List.filterMap_nil]
  · exact get_polytopes_mask_thresholds
      [NetModule.lin ⟨[[1]], [0]⟩, NetModule.act, NetModule.lin ⟨[[1]], [0]⟩]
      [1] false 1 [1] [true]
      (by norm_num [polytopeLoop, linearLayers, affine, dot, maskGate, List.filterMap_cons,
        List.filterMap_nil])

/-! ### Claim C4: the penultimate capture -/

theorem polytopeLoop_fst (p : Bool) (total : ℕ) :
    ∀ (layers : List LinearLayer) (idx : ℕ) (acts : Vec) (pen : Option Vec),
      (polytopeLoop p total idx layers acts pen).1 =
        (polytopeLoop false total idx layers acts none).1 := by
  intro layers
  induction layers with
  | nil => intro idx acts pen; rfl
  | cons l rest ih => intro idx acts pen; simp [polytopeLoop, ih]

theorem polytopeLoop_acts (p : Bool) (total : ℕ) :
    ∀ (layers : List LinearLayer) (idx : ℕ) (acts : Vec) (pen : Option Vec),
      (polytopeLoop p total idx layers acts pen).2.1 =
        (polytopeLoop false total idx layers acts none).2.1 := by
  intro layers
  induction layers with
  | nil => intro idx acts pen; rfl
  | cons l rest ih => intro idx acts pen; simp [polytopeLoop, ih]

theorem polytopeLoop_pen_capture (total : ℕ) :
    ∀ (layers : List LinearLayer) (idx : ℕ) (acts : Vec) (pen : Option Vec),
      layers ≠ [] → idx + layers.length = total →
      (polytopeLoop true total idx layers acts pen).2.2 =
        some (polytopeLoop true total idx layers acts pen).2.1 := by
  intro layers
  induction layers with
  | nil => intro idx acts pen hne; exact absurd rfl hne
  | cons l rest ih =>
      intro idx acts pen hne hlen
      simp only [polytopeLoop]
      cases rest with
      | nil =>
          have hidx : idx = total - 1 := by
            simp at hlen
            omega
          simp [polytopeLoop, hidx]
      | cons l2 rest2 =>
          exact ih (idx + 1) _ _ (by simp) (by simp at hlen ⊢; omega)

/-- C4 (amended): when `penultimate` mode is requested, `get_polytopes`
captures `last_activations` after the final mask has already been applied, so
the returned "penultimate activation" equals the final masked activations —
the very same value the non-penultimate mode returns — not the activations
before the final mask. -/
theorem get_polytopes_penultimate_eq_masked (m : List NetModule) (x : Vec)
    (h : linearLayers m ≠ []) :
    get_polytopes m x true = get_polytopes m x false := by
  unfold get_polytopes
  have h1 := polytopeLoop_fst true (linearLayers m).length (linearLayers m) 0 x none
  have h2 := polytopeLoop_acts true (linearLayers m).length (linearLayers m) 0 x none
  have h3 := polytopeLoop_pen_capture (linearLayers m).length (linearLayers m) 0 x none h
    (by simp)
  simp only [if_true, if_false, Bool.false_eq_true]
  rw [h3, h2, h1]

/-- C4 witness: the amended theorem at a concrete one-layer model, whose
Linear-layer list is nonempty. -/
theorem get_polytopes_penultimate_eq_masked_witness :
    linearLayers [NetModule.lin ⟨[[1]], [0]⟩] ≠ [] ∧
      get_polytopes [NetModule.lin ⟨[[1]], [0]⟩] [3/10] true =
        get_polytopes [NetModule.lin ⟨[[1]], [0]⟩] [3/10] false :=
  ⟨by simp [linearLayers, List.filterMap_cons],
   get_polytopes_penultimate_eq_masked _ [3/10]
     (by simp [linearLayers, List.filterMap_cons])⟩

/-- C4 counterexample: for the one-layer model with weight `[[1]]`, bias `[0]`
on the input `[0.3]`, the final preactivation (the activations before the
final mask, which the claim says is returned) is `[0.3]`, but penultimate mode
returns the masked value `[0]`. -/
theorem get_polytopes_penultimate_counterexample :
    (get_polytopes [NetModule.lin ⟨[[1]], [0]⟩] [3/10] true).2 = some [0] ∧
      specPenultimateAct [NetModule.lin ⟨[[1]], [0]⟩] [3/10] = some [3/10] ∧
      some [(0 : ℚ)] ≠ some [(3 : ℚ)/10] := by
  refine ⟨?_, ?_, by norm_num⟩
  · norm_num [get_polytopes, linearLayers, polytopeLoop, affine, dot, maskGate,
      List.filterMap_cons, List.filterMap_nil]
  · norm_num [specPenultimateAct, linearLayers, polytopeLoop, affine, dot, maskGate,
      List.filterMap_cons, List.filterMap_nil]

/-! ### Claim C10: the analyzer depends only on the Linear layers -/

/-- C10: `get_polytopes` reads the model only through its Linear layers
(utils.py:450 filters `type(module) == torch.nn.Linear`): any two models with
identical Linear layers — in particular models differing only in BatchNorm
modules or BatchNorm parameters — receive identical region identifiers and
activations on every input. -/
theorem get_polytopes_ignores_batchnorm (m1 m2 : List NetModule) (x : Vec) (pen : Bool)
    (h : linearLayers m1 = linearLayers m2) :
    get_polytopes m1 x pen = get_polytopes m2 x pen := by
  unfold get_polytopes
  rw [h]

/-- C10 witness: a model with a BatchNorm module (with parameters) and one
without it, sharing the same Linear layer, produce the same result. -/
theorem get_polytopes_ignores_batchnorm_witness :
    linearLayers [NetModule.bn [1, 2], NetModule.lin ⟨[[2]], [1]⟩, NetModule.act] =
        linearLayers [NetModule.lin ⟨[[2]], [1]⟩] ∧
      get_polytopes [NetModule.bn [1, 2], NetModule.lin ⟨[[2]], [1]⟩, NetModule.act] [3]
          false =
        get_polytopes [NetModule.lin ⟨[[2]], [1]⟩] [3] false :=
  ⟨by simp [linearLayers, List.filterMap_cons],
   get_polytopes_ignores_batchnorm _ _ [3] false
     (by simp [linearLayers, List.filterMap_cons])⟩

/-! ### Claim C8: Gini impurity value and bounds -/

/-- C8: for nonnegative counts with `P1 + P2 > 0`, `gini_impurity` returns
`2 * (P1/(P1+P2)) * (P2/(P1+P2))`; the value lies in `[0, 1/2]`, equals `1/2`
exactly when `P1 = P2`, and equals 0 whenever one of the counts is 0. -/
theorem gini_impurity_bounds (P1 P2 : ℚ) (h1 : 0 ≤ P1) (h2 : 0 ≤ P2)
    (h : 0 < P1 + P2) :
    gini_impurity P1 P2 = some (2 * (P1 / (P1 + P2)) * (P2 / (P1 + P2))) ∧
    0 ≤ 2 * (P1 / (P1 + P2)) * (P2 / (P1 + P2)) ∧
    2 * (P1 / (P1 + P2)) * (P2 / (P1 + P2)) ≤ 1/2 ∧
    (2 * (P1 / (P1 + P2)) * (P2 / (P1 + P2)) = 1/2 ↔ P1 = P2) ∧
    ((P1 = 0 ∨ P2 = 0) → 2 * (P1 / (P1 + P2)) * (P2 / (P1 + P2)) = 0) := by
  have hne : P1 + P2 ≠ 0 := ne_of_gt h
  have key : 2 * (P1 / (P1 + P2)) * (P2 / (P1 + P2)) =
      2 * P1 * P2 / ((P1 + P2) * (P1 + P2)) := by
    field_simp
  have hpos : 0 < (P1 + P2) * (P1 + P2) := mul_pos h h
  refine ⟨by simp [gini_impurity, hne], by positivity, ?_, ?_, ?_⟩
  · rw [key, div_le_iff₀ hpos]
    nlinarith [sq_nonneg (P1 - P2)]
  · rw [key, div_eq_iff (ne_of_gt hpos)]
    constructor
    · intro hk
      have hsq : (P1 - P2)^2 = 0 := by linear_combination (-2 : ℚ) * hk
      have hz := sq_eq_zero_iff.mp hsq
      linarith
    · intro hk
      subst hk
      ring
  · rintro (rfl | rfl) <;> simp

/-- C8 witness: at the balanced counts `P1 = P2 = 1` the impurity is defined
and attains the maximum `1/2`. -/
theorem gini_impurity_bounds_witness :
    gini_impurity 1 1 = some (2 * ((1 : ℚ) / (1 + 1)) * (1 / (1 + 1))) ∧
      2 * ((1 : ℚ) / (1 + 1)) * (1 / (1 + 1)) = 1/2 := by
  have hb := gini_impurity_bounds 1 1 (by norm_num) (by norm_num) (by norm_num)
  exact ⟨hb.1, hb.2.2.2.1.mpr rfl⟩

/-! ### Claim C1: the Bayes posterior oracle versus the generator labels -/

/-- The quadratic form `(x - mu) @ inv_cov @ (x - mu).T` of `pdf`
(utils.py:422-438) with `inv_cov = inv(1 * eye(2)) = I`. -/
noncomputable def quadForm (x m : ℝ × ℝ) : ℝ := (x.1 - m.1)^2 + (x.2 - m.2)^2

/-- `pdf` (utils.py:422-438): `mu01, mu02 = (−1,−1), (1,1)` feed `p0` and
`mu11, mu12 = (−1,1), (1,−1)` feed `p1`; returns
`[p1/(p0+p1), p0/(p0+p1)]`, with denominator `2·π·sqrt(det cov)`. -/
noncomputable def pdf (x : ℝ × ℝ) : ℝ × ℝ :=
  let p0 := (Real.exp (-quadForm x (-1, -1)) + Real.exp (-quadForm x (1, 1))) /
      (2 * Real.pi * Real.sqrt 1)
  let p1 := (Real.exp (-quadForm x (-1, 1)) + Real.exp (-quadForm x (1, -1))) /
      (2 * Real.pi * Real.sqrt 1)
  (p1 / (p0 + p1), p0 / (p0 + p1))

/-- Unit-covariance Gaussian density kernel at mean `m` (spec-side; the true
density has the `1/2` factor in the exponent that `pdf` omits). -/
noncomputable def gaussDensity (x m : ℝ × ℝ) : ℝ :=
  Real.exp (-quadForm x m / 2) / (2 * Real.pi)

/-- Spec-side definition, following the claim's words: the true posterior
probability, under the four-Gaussian mixture with unit covariance, of the
class that `generate_gaussian_parity` labels 1 — the first two centers
`(−1,−1)` and `(1,1)` (utils.py:27 and 38: `Y = int(i < 2)` over the means
`[[-1,-1],[1,1],[1,-1],[-1,1]]`). -/
noncomputable def truePosteriorGenClass1 (x : ℝ × ℝ) : ℝ :=
  (gaussDensity x (-1, -1) + gaussDensity x (1, 1)) /
    (gaussDensity x (-1, -1) + gaussDensity x (1, 1) +
      gaussDensity x (1, -1) + gaussDensity x (-1, 1))

theorem div_add_lt_half {a b : ℝ} (ha : 0 < a) (hb : a < b) : a / (b + a) < 1/2 := by
  rw [div_lt_iff₀ (by linarith)]
  linarith

theorem half_lt_posterior {a1 a2 b1 b2 : ℝ} (hb : 0 < b1 + b2) (h : b1 + b2 < a1 + a2) :
    1/2 < (a1 + a2) / (a1 + a2 + b1 + b2) := by
  have h1 : 0 < a1 + a2 + b1 + b2 := by linarith
  rw [lt_div_iff₀ h1]
  linarith

theorem div_lt_div_same {a b c : ℝ} (hc : 0 < c) (h : a < b) : a / c < b / c := by
  rw [div_lt_div_iff₀ hc hc]
  exact mul_lt_mul_of_pos_right h hc

/-- C1: at the failing input `x = (−1,−1)` — the center of a Gaussian whose
points `generate_gaussian_parity` labels class 1 — the first component of
`pdf x` is below `1/2` while the true posterior of the generator's class 1 is
above `1/2`, so the two differ: `pdf` assigns the means `(−1,1), (1,−1)` to
class 1 while the generator's code labels `(−1,−1), (1,1)` as class 1
(contradicting the generator's own docstring, which calls them class 0). -/
theorem pdf_contradicts_generator_labels :
    (pdf (-1, -1)).1 < 1/2 ∧ 1/2 < truePosteriorGenClass1 (-1, -1) ∧
      (pdf (-1, -1)).1 ≠ truePosteriorGenClass1 (-1, -1) := by
  have hq1 : quadForm (-1, -1) (-1, -1) = 0 := by norm_num [quadForm]
  have hq2 : quadForm (-1, -1) (1, 1) = 8 := by norm_num [quadForm]
  have hq3 : quadForm (-1, -1) (-1, 1) = 4 := by norm_num [quadForm]
  have hq4 : quadForm (-1, -1) (1, -1) = 4 := by norm_num [quadForm]
  have he4 : (2 : ℝ) < Real.exp 4 := by nlinarith [Real.add_one_le_exp (4 : ℝ)]
  have he2 : (2 : ℝ) < Real.exp 2 := by nlinarith [Real.add_one_le_exp (2 : ℝ)]
  have hm4 : Real.exp (-4) * Real.exp 4 = 1 := by
    rw [← Real.exp_add]
    norm_num
  have hm2 : Real.exp (-2) * Real.exp 2 = 1 := by
    rw [← Real.exp_add]
    norm_num
  have hexp4 : Real.exp (-4) < 1/2 := by nlinarith [Real.exp_pos (-4), he4, hm4]
  have hexp2 : Real.exp (-2) < 1/2 := by nlinarith [Real.exp_pos (-2), he2, hm2]
  have hfst : (pdf (-1, -1)).1 < 1/2 := by
    simp only [pdf, hq1, hq2, hq3, hq4, neg_zero, Real.exp_zero, Real.sqrt_one, mul_one]
    refine div_add_lt_half (by positivity) ?_
    refine div_lt_div_same (by positivity) ?_
    have := Real.exp_pos (-8 : ℝ)
    linarith
  have hsnd : 1/2 < truePosteriorGenClass1 (-1, -1) := by
    simp only [truePosteriorGenClass1, gaussDensity, hq1, hq2, hq3, hq4]
    have e0 : (-(0 : ℝ)) / 2 = 0 := by norm_num
    have e8 : (-(8 : ℝ)) / 2 = -4 := by norm_num
    have e4h : (-(4 : ℝ)) / 2 = -2 := by norm_num
    rw [e0, e8, e4h, Real.exp_zero]
    refine half_lt_posterior (by positivity) ?_
    have h1 : Real.exp (-2) / (2 * Real.pi) + Real.exp (-2) / (2 * Real.pi) =
        (Real.exp (-2) + Real.exp (-2)) / (2 * Real.pi) := by ring
    have h2 : 1 / (2 * Real.pi) + Real.exp (-4) / (2 * Real.pi) =
        (1 + Real.exp (-4)) / (2 * Real.pi) := by ring
    rw [h1, h2]
    refine div_lt_div_same (by positivity) ?_
    have := Real.exp_pos (-4 : ℝ)
    linarith
  refine ⟨hfst, hsnd, ?_⟩
  intro he
  rw [he] at hfst
  linarith

/-! ### Claim C9: Hellinger distance (utils.py: hellinger_explicit, lines 416-420) -/

/-- Per-row value of utils.py:420:
`sqrt(sum((sqrt(p_i) - sqrt(q_i))^2)) / sqrt(2)`. -/
noncomputable def hellingerRow (p q : List ℝ) : ℝ :=
  Real.sqrt ((List.zipWith (fun a b => (Real.sqrt a - Real.sqrt b)^2) p q).sum) /
    Real.sqrt 2

/-- `hellinger_explicit(p, q)` (utils.py:416-420): the `np.mean` over the `n`
rows of the per-row values, i.e. their sum divided by the number of rows. -/
noncomputable def hellinger_explicit (p q : List (List ℝ)) : ℝ :=
  (List.zipWith hellingerRow p q).sum / p.length

/-- A row is a discrete probability vector: nonnegative entries summing to 1. -/
def probVec (r : List ℝ) : Prop := (∀ a ∈ r, 0 ≤ a) ∧ r.sum = 1

theorem hellingerRow_nonneg (p q : List ℝ) : 0 ≤ hellingerRow p q := by
  unfold hellingerRow
  positivity

theorem sq_sqrt_sub_le {a b : ℝ} (ha : 0 ≤ a) (hb : 0 ≤ b) :
    (Real.sqrt a - Real.sqrt b)^2 ≤ a + b := by
  have h1 : Real.sqrt a ^ 2 = a := Real.sq_sqrt ha
  have h2 : Real.sqrt b ^ 2 = b := Real.sq_sqrt hb
  nlinarith [mul_nonneg (Real.sqrt_nonneg a) (Real.sqrt_nonneg b)]

theorem zipWith_sq_sum_le : ∀ (p q : List ℝ), (∀ a ∈ p, 0 ≤ a) → (∀ b ∈ q, 0 ≤ b) →
    (List.zipWith (fun a b => (Real.sqrt a - Real.sqrt b)^2) p q).sum ≤ p.sum + q.sum := by
  intro p
  induction p with
  | nil =>
      intro q hp hq
      have := List.sum_nonneg hq
      simpa using this
  | cons a p ih =>
      intro q hp hq
      cases q with
      | nil =>
          have := List.sum_nonneg hp
          simpa using this
      | cons b q =>
          simp only [List.zipWith_cons_cons, List.sum_cons]
          have hab := sq_sqrt_sub_le (hp a (by simp)) (hq b (by simp))
          have hrec := ih q (fun x hx => hp x (by simp [hx])) (fun y hy => hq y (by simp [hy]))
          linarith

theorem hellingerRow_le_one (p q : List ℝ) (hp : probVec p) (hq : probVec q) :
    hellingerRow p q ≤ 1 := by
  unfold hellingerRow
  have hsum := zipWith_sq_sum_le p q hp.1 hq.1
  rw [hp.2, hq.2] at hsum
  have hs2 : (0 : ℝ) < Real.sqrt 2 := Real.sqrt_pos.mpr (by norm_num)
  rw [div_le_one hs2]
  exact Real.sqrt_le_sqrt (by linarith)

theorem zipWith_self_sq_zero (r : List ℝ) :
    (List.zipWith (fun a b => (Real.sqrt a - Real.sqrt b)^2) r r).sum = 0 := by
  induction r with
  | nil => simp
  | cons a r ih => simp [ih]

theorem hellingerRow_self (r : List ℝ) : hellingerRow r r = 0 := by
  unfold hellingerRow
  rw [zipWith_self_sq_zero, Real.sqrt_zero, zero_div]

theorem zipWith_disjoint_sq_sum : ∀ (p q : List ℝ),
    List.Forall₂ (fun a b => a = 0 ∨ b = 0) p q →
    (∀ a ∈ p, 0 ≤ a) → (∀ b ∈ q, 0 ≤ b) →
    (List.zipWith (fun a b => (Real.sqrt a - Real.sqrt b)^2) p q).sum = p.sum + q.sum := by
  intro p q hd
  induction hd with
  | nil =>
      intro _ _
      simp
  | @cons a b p q hab hrest ih =>
      intro hp hq
      simp only [List.zipWith_cons_cons, List.sum_cons]
      have hA : (Real.sqrt a - Real.sqrt b)^2 = a + b := by
        rcases hab with h | h
        · subst h
          rw [Real.sqrt_zero, zero_sub, neg_sq, Real.sq_sqrt (hq b (by simp))]
          ring
        · subst h
          rw [Real.sqrt_zero, sub_zero, Real.sq_sqrt (hp a (by simp))]
          ring
      rw [hA, ih (fun x hx => hp x (by simp [hx])) (fun y hy => hq y (by simp [hy]))]
      ring

theorem hellingerRow_disjoint (r s : List ℝ) (hr : probVec r) (hs : probVec s)
    (hd : List.Forall₂ (fun a b => a = 0 ∨ b = 0) r s) : hellingerRow r s = 1 := by
  unfold hellingerRow
  rw [zipWith_disjoint_sq_sum r s hd hr.1 hs.1, hr.2, hs.2]
  have h2 : (1 : ℝ) + 1 = 2 := by norm_num
  rw [h2]
  exact div_self (ne_of_gt (Real.sqrt_pos.mpr (by norm_num)))

theorem zipWith_row_sum_nonneg : ∀ (p q : List (List ℝ)),
    0 ≤ (List.zipWith hellingerRow p q).sum := by
  intro p
  induction p with
  | nil =>
      intro q
      simp
  | cons r p ih =>
      intro q
      cases q with
      | nil => simp
      | cons s q =>
          simp only [List.zipWith_cons_cons, List.sum_cons]
          have h1 := hellingerRow_nonneg r s
          have h2 := ih q
          linarith

theorem zipWith_row_sum_le : ∀ (p q : List (List ℝ)), (∀ r ∈ p, probVec r) →
    (∀ r ∈ q, probVec r) →
    (List.zipWith hellingerRow p q).sum ≤ (p.length : ℝ) := by
  intro p
  induction p with
  | nil =>
      intro q hp hq
      simp
  | cons r p ih =>
      intro q hp hq
      cases q with
      | nil =>
          simp only [List.zipWith_nil_right, List.sum_nil, List.length_cons]
          positivity
      | cons s q =>
          simp only [List.zipWith_cons_cons, List.sum_cons, List.length_cons]
          have h1 := hellingerRow_le_one r s (hp r (by simp)) (hq s (by simp))
          have h2 := ih q (fun x hx => hp x (by simp [hx])) (fun y hy => hq y (by simp [hy]))
          push_cast
          linarith

theorem zipWith_row_sum_self (p : List (List ℝ)) :
    (List.zipWith hellingerRow p p).sum = 0 := by
  induction p with
  | nil => simp
  | cons r p ih => simp [hellingerRow_self, ih]

theorem zipWith_row_sum_disjoint : ∀ (p q : List (List ℝ)),
    List.Forall₂ (List.Forall₂ (fun a b => a = 0 ∨ b = 0)) p q →
    (∀ r ∈ p, probVec r) → (∀ r ∈ q, probVec r) →
    (List.zipWith hellingerRow p q).sum = (p.length : ℝ) := by
  intro p q hd
  induction hd with
  | nil =>
      intro _ _
      simp
  | @cons r s p q hrs hrest ih =>
      intro hp hq
      simp only [List.zipWith_cons_cons, List.sum_cons, List.length_cons]
      rw [hellingerRow_disjoint r s (hp r (by simp)) (hq s (by simp)) hrs,
        ih (fun x hx => hp x (by simp [hx])) (fun y hy => hq y (by simp [hy]))]
      push_cast
      ring

/-- C9: for arrays of identical shape with at least one row, all rows valid
probability vectors, `hellinger_explicit` is the average over rows of
`sqrt(sum((sqrt p_i - sqrt q_i)^2))/sqrt 2`; it lies in `[0, 1]`, equals 0
when `p = q`, and equals 1 when every corresponding row pair has disjoint
supports. -/
theorem hellinger_explicit_bounds (p q : List (List ℝ))
    (hlen : p.length = q.length) (hn : 0 < p.length)
    (hp : ∀ r ∈ p, probVec r) (hq : ∀ r ∈ q, probVec r) :
    hellinger_explicit p q = (List.zipWith hellingerRow p q).sum / p.length ∧
    0 ≤ hellinger_explicit p q ∧ hellinger_explicit p q ≤ 1 ∧
    (p = q → hellinger_explicit p q = 0) ∧
    (List.Forall₂ (List.Forall₂ (fun a b => a = 0 ∨ b = 0)) p q →
      hellinger_explicit p q = 1) := by
  have hnR : (0 : ℝ) < (p.length : ℝ) := by exact_mod_cast hn
  refine ⟨rfl, ?_, ?_, ?_, ?_⟩
  · exact div_nonneg (zipWith_row_sum_nonneg p q) (le_of_lt hnR)
  · rw [hellinger_explicit, div_le_one hnR]
    exact zipWith_row_sum_le p q hp hq
  · intro hpq
    subst hpq
    rw [hellinger_explicit, zipWith_row_sum_self, zero_div]
  · intro hd
    rw [hellinger_explicit, zipWith_row_sum_disjoint p q hd hp hq]
    exact div_self (ne_of_gt hnR)

/-- C9 witness: on the disjoint-support rows `p = [[1,0]]`, `q = [[0,1]]` the
distance attains the extreme value 1. -/
theorem hellinger_explicit_bounds_witness :
    hellinger_explicit [[1, 0]] [[0, 1]] = 1 := by
  have hp : ∀ r ∈ [[(1 : ℝ), 0]], probVec r := by
    intro r hr
    simp only [List.mem_singleton] at hr
    subst hr
    refine ⟨?_, by norm_num⟩
    intro a ha
    simp at ha
    rcases ha with rfl | rfl <;> norm_num
  have hq : ∀ r ∈ [[(0 : ℝ), 1]], probVec r := by
    intro r hr
    simp only [List.mem_singleton] at hr
    subst hr
    refine ⟨?_, by norm_num⟩
    intro a ha
    simp at ha
    rcases ha with rfl | rfl <;> norm_num
  have hd : List.Forall₂ (List.Forall₂ (fun a b => a = 0 ∨ b = 0))
      [[(1 : ℝ), 0]] [[(0 : ℝ), 1]] := by
    refine List.Forall₂.cons ?_ List.Forall₂.nil
    exact List.Forall₂.cons (Or.inr rfl) (List.Forall₂.cons (Or.inl rfl) List.Forall₂.nil)
  exact (hellinger_explicit_bounds [[1, 0]] [[0, 1]] rfl (by norm_num) hp hq).2.2.2.2 hd

end DDExp
